import Mathlib

/-!
Verification development for the docs synchronization script of the
`next.js-docs` repository (the script embedded in `astro.config.mjs`).

The script:
  * deletes a cache directory if it exists;
  * runs three `git` subprocesses (`clone --depth 1 --no-checkout <url> <cacheDir>`,
    `sparse-checkout set docs`, `checkout`) through a helper `run` that calls
    `spawn.sync` and exits the process only when `result.error` is set;
  * normalizes every file and directory name in the checked-out `docs` tree by
    `stripPrefix` (`name.replace` with the regex `^\d+-` and the empty
    replacement), recursing top-down (`renameAll`);
  * deletes the destination directory `src/content/docs/docs` if it exists and
    recursively copies the normalized tree there (`cpSync`).

We embed the name normalization, the recursive rename traversal (as the list of
attempted `renameSync` calls), the filesystem tree produced by a successful run,
and the control flow of the whole pipeline.
-/

namespace DocsSync

/-! ## Name normalization

`stripPrefix(name)` returns `name.replace` applied to the regex `^\d+-` with
the empty replacement string.

The regex `^\d+-` matches iff the (maximal) leading run of ASCII digits is
nonempty and is immediately followed by `'-'`; `replace` with `""` then drops
exactly that prefix, otherwise the string is returned unchanged.  We work on
`List Char` (the character sequence of the name) and wrap into `String`.
-/

/-- `true` iff the name matches the code's regex `^\d+-`: a nonempty leading
run of ASCII digits immediately followed by a hyphen. -/
def numPrefixMatch (l : List Char) : Bool :=
  !(l.takeWhile Char.isDigit).isEmpty &&
    ((l.dropWhile Char.isDigit).head? == some '-')

/-- Character-list core of `stripPrefix`: replacing the first match of `^\d+-`
with `""` removes the digits-and-hyphen prefix when the regex matches, else is
the identity. -/
def stripPrefixData (l : List Char) : List Char :=
  if numPrefixMatch l then (l.dropWhile Char.isDigit).tail else l

/-- `stripPrefix` from the script, on `String`. -/
def stripPrefix (name : String) : String :=
  String.mk (stripPrefixData name.data)

/-- The spec's pattern `^[0-9]+-(.+)$`: a nonempty leading digit run, a hyphen,
and a nonempty remainder.  (Modelled from the spec: the full-match pattern the
spec uses to describe which names are normalized; it differs from the code's
`^\d+-` only in requiring a nonempty remainder.) -/
def specPatternMatch (l : List Char) : Bool :=
  numPrefixMatch l && !((l.dropWhile Char.isDigit).tail.isEmpty)

/-- The capture group `\1` of the spec's pattern `^[0-9]+-(.+)$`: everything
after the first digit-run-and-hyphen prefix. -/
def specCapture (l : List Char) : List Char :=
  (l.dropWhile Char.isDigit).tail

/-! ## The checked-out file tree and `renameAll`

`renameAll(dirPath)` reads the entries of `dirPath`; for each entry it
computes `oldPath = path.join(dirPath, item.name)`,
`newName = stripPrefix(item.name)`, `newPath = path.join(dirPath, newName)`,
calls `fs.renameSync(oldPath, newPath)` when `oldPath !== newPath`, and, when
the entry is a directory, recurses into `newPath`.

We model the directory tree as `FsTree` and paths as segment lists rooted at
an abstract base.  `joinSeg` models Node's `path.join(dir, name)` for a
directory path and a single slash-free name: `path.join` drops empty
components, so joining with `""` returns the directory itself.
-/

/-- A file-system tree: a file or a directory with a list of children. -/
inductive FsTree where
  | file : String → FsTree
  | dir : String → List FsTree → FsTree

/-- Node's `path.join(dirPath, name)` for a directory path (as a list of
segments) and one slash-free name: empty components are dropped. -/
def joinSeg (d : List String) (s : String) : List String :=
  if s = "" then d else d ++ [s]

mutual

/-- The segment-wise normalized image of a tree: every name replaced by its
`stripPrefix` form, recursively.  This is the image the spec describes; the
faithful execution model of `renameAll` (`renameAllExecF` below) is compared
against it, and coincides with it only in the absence of rename collisions. -/
def normalizeTree : FsTree → FsTree
  | FsTree.file nm => FsTree.file (stripPrefix nm)
  | FsTree.dir nm cs => FsTree.dir (stripPrefix nm) (normalizeForest cs)

def normalizeForest : List FsTree → List FsTree
  | [] => []
  | t :: ts => normalizeTree t :: normalizeForest ts

end

mutual

/-- All paths (as segment lists, relative to the tree's parent) of the nodes
of a tree, including the directories themselves. -/
def treePaths : FsTree → List (List String)
  | FsTree.file nm => [[nm]]
  | FsTree.dir nm cs => [nm] :: (forestPaths cs).map fun p => nm :: p

def forestPaths : List FsTree → List (List String)
  | [] => []
  | t :: ts => treePaths t ++ forestPaths ts

end

/-- The body of `renameAll`'s loop for one entry name: the `renameSync`
invocation attempted for it — `(oldPath, newPath)` when the
`oldPath !== newPath` guard passes, nothing otherwise. -/
def renameStep (dirPath : List String) (nm : String) :
    List (List String × List String) :=
  if joinSeg dirPath nm ≠ joinSeg dirPath (stripPrefix nm) then
    [(joinSeg dirPath nm, joinSeg dirPath (stripPrefix nm))]
  else []

mutual

/-- The sequence of `renameSync` invocations `renameAll` attempts for one
entry: first the entry's own rename, then — when the entry is a directory —
the renames inside it, computed from the entry's new (renamed) path. -/
def renameEntryOps (dirPath : List String) : FsTree → List (List String × List String)
  | FsTree.file nm => renameStep dirPath nm
  | FsTree.dir nm cs =>
      renameStep dirPath nm ++ renameAllOps (joinSeg dirPath (stripPrefix nm)) cs

/-- The sequence of `renameSync` invocations of `renameAll(dirPath)` over a
directory listing, in order. -/
def renameAllOps (dirPath : List String) : List FsTree → List (List String × List String)
  | [] => []
  | it :: rest => renameEntryOps dirPath it ++ renameAllOps dirPath rest

end

/-! ## A faithful execution model of `renameAll` (C6)

`renameAll` iterates over a snapshot of the directory listing taken before any
rename (`readdirSync` with dirents), while its renames and its recursion
resolve paths against the live directory state.  `renameSync` follows POSIX
`rename(2)`: renaming onto an existing file succeeds by replacing it when the
source is a file; renaming onto an existing empty directory succeeds by
replacing it when the source is a directory; the remaining cases (nonempty
target directory, file/directory mismatch, missing source, or a rename onto
the parent itself when the stripped name is empty) throw and so abort the
run.  Consequently a directory whose stale snapshot dirent still resolves
after a sibling was renamed onto its path is traversed a second time through
that dirent.

The state of a directory is its entry list in `readdir` order; a rename keeps
the affected entry's position (order is not observable, since each listing is
snapshotted before its loop).  `renameAllExecF` consumes one unit of fuel per
nesting level only; renames move subtrees only among siblings, so the live
tree never becomes higher than the initial tree and the fuel
`forestHeight + 1` supplied by `renameAllRun` always suffices. -/

/-- The name of an entry. -/
def entryName : FsTree → String
  | FsTree.file nm => nm
  | FsTree.dir nm _ => nm

/-- Whether a snapshot dirent reports a directory (`item.isDirectory()`). -/
def isDirEntry : FsTree → Bool
  | FsTree.file _ => false
  | FsTree.dir _ _ => true

/-- The same filesystem object under a new name. -/
def withName (nm : String) : FsTree → FsTree
  | FsTree.file _ => FsTree.file nm
  | FsTree.dir _ cs => FsTree.dir nm cs

/-- Resolve a name in a directory state (first entry with that name). -/
def findEntry (nm : String) : List FsTree → Option FsTree
  | [] => none
  | e :: es => if entryName e = nm then some e else findEntry nm es

/-- A rename whose target name is free: the source entry is renamed in
place. -/
def renameInState (nm newName : String) (src : FsTree) (st : List FsTree) :
    List FsTree :=
  st.map fun e => if entryName e = nm then withName newName src else e

/-- A rename whose target name is taken: the source entry is removed and the
target entry is replaced by the renamed source object. -/
def replaceInState (nm newName : String) (src : FsTree) (st : List FsTree) :
    List FsTree :=
  (st.filter fun e => entryName e != nm).map fun e =>
    if entryName e = newName then withName newName src else e

/-- `fs.renameSync(join dir nm, join dir newName)` on the directory state,
for `nm ≠ newName` and `newName ≠ ""`: `none` is a thrown error. -/
def applyRename (nm newName : String) (st : List FsTree) :
    Option (List FsTree) :=
  match findEntry nm st with
  | none => none
  | some src =>
    match findEntry newName st with
    | none => some (renameInState nm newName src st)
    | some tgt =>
      match src, tgt with
      | FsTree.file _, FsTree.file _ => some (replaceInState nm newName src st)
      | FsTree.dir _ _, FsTree.dir _ tcs =>
          if tcs.isEmpty then some (replaceInState nm newName src st) else none
      | _, _ => none

/-- Overwrite the children of the entry named `nm` (known to be a directory)
after the recursive `renameAll` call returned. -/
def setChildren (nm : String) (cs2 : List FsTree) (st : List FsTree) :
    List FsTree :=
  st.map fun e => if entryName e = nm then FsTree.dir nm cs2 else e

/-- One iteration of `renameAll`'s loop for the snapshot dirent `(nm, d)`:
rename unless `oldPath === newPath` (which for slash-free names means
`nm = stripPrefix nm`), erroring on a rename onto the parent (empty stripped
name) or a colliding rename `renameSync` rejects; then, when the dirent
reported a directory, recurse into `newPath` as resolved in the live state
(`none` when it no longer resolves to a directory: `readdirSync` throws). -/
def stepOne (recur : List FsTree → Option (List FsTree)) (nm : String)
    (d : Bool) (st : List FsTree) : Option (List FsTree) :=
  match (if nm = stripPrefix nm then some st
         else if stripPrefix nm = "" then none
         else applyRename nm (stripPrefix nm) st) with
  | none => none
  | some st1 =>
    if d then
      match findEntry (stripPrefix nm) st1 with
      | some (FsTree.dir _ dcs) =>
        match recur dcs with
        | some dcs2 => some (setChildren (stripPrefix nm) dcs2 st1)
        | none => none
      | _ => none
    else some st1

/-- `renameAll`'s loop over the remaining snapshot dirents, threading the
live directory state. -/
def runItems (recur : List FsTree → Option (List FsTree)) :
    List (String × Bool) → List FsTree → Option (List FsTree)
  | [], st => some st
  | (nm, d) :: rest, st =>
    match stepOne recur nm d st with
    | none => none
    | some st1 => runItems recur rest st1

/-- The snapshot `readdirSync(dirPath, { withFileTypes: true })` takes before
the loop: names and directory flags, in order. -/
def snapshotOf (cs : List FsTree) : List (String × Bool) :=
  cs.map fun e => (entryName e, isDirEntry e)

/-- `renameAll` on a directory's children, fuelled by nesting depth:
`some` is the final children list, `none` a thrown error (or exhausted fuel,
which `renameAllRun`'s choice of fuel rules out). -/
def renameAllExecF : Nat → List FsTree → Option (List FsTree)
  | 0, _ => none
  | fuel + 1, children => runItems (renameAllExecF fuel) (snapshotOf children) children

mutual

/-- Height of a tree: nesting depth of directories. -/
def treeHeight : FsTree → Nat
  | FsTree.file _ => 0
  | FsTree.dir _ cs => forestHeight cs + 1

/-- Height of a directory listing. -/
def forestHeight : List FsTree → Nat
  | [] => 0
  | t :: ts => max (treeHeight t) (forestHeight ts)

end

/-- The complete execution of `renameAll` on a directory's children. -/
def renameAllRun (cs : List FsTree) : Option (List FsTree) :=
  renameAllExecF (forestHeight cs + 1) cs

/-- The destination contents after the run's final steps: the previous
destination (if any) is removed and `cpSync` copies the cache's `docs` tree —
as `renameAll` actually left it — to the destination, so the result is the
outcome of the rename execution, independent of the previous destination;
`none` means `renameAll` threw and the run aborted before the destination
steps. -/
def runDestination (_prevDest : Option FsTree) (docsChildren : List FsTree) :
    Option (List FsTree) :=
  renameAllRun docsChildren

/-- The pairwise conditions under which two sibling names cannot interact
during `renameAll`: distinct names, distinct normalized names, and neither
normalized name equal to the other's original name. -/
def nameOK (a b : String) : Bool :=
  a != b && (stripPrefix a != stripPrefix b) &&
    (stripPrefix a != b) && (stripPrefix b != a)

/-- `nameOK` over all ordered pairs of a listing's names. -/
def sibsOK : List String → Bool
  | [] => true
  | n :: ns => ns.all (nameOK n) && sibsOK ns

/-- No name in the listing strips to the empty string. -/
def stripsNonempty (ns : List String) : Bool :=
  ns.all fun n => stripPrefix n != ""

mutual

/-- Collision-freeness of a tree, recursively:
every directory listing satisfies `stripsNonempty` and `sibsOK`. -/
def noCollisionTree : FsTree → Bool
  | FsTree.file _ => true
  | FsTree.dir _ cs =>
      (stripsNonempty (cs.map entryName) && sibsOK (cs.map entryName)) &&
        noCollisionAll cs

/-- Collision-freeness of every tree in a listing. -/
def noCollisionAll : List FsTree → Bool
  | [] => true
  | t :: ts => noCollisionTree t && noCollisionAll ts

end

/-- Collision-freeness of a directory listing and everything below it. -/
def noCollisionForest (cs : List FsTree) : Bool :=
  (stripsNonempty (cs.map entryName) && sibsOK (cs.map entryName)) &&
    noCollisionAll cs

/-- The propositional content of `nameOK`. -/
def NameFacts (a b : String) : Prop :=
  a ≠ b ∧ stripPrefix a ≠ stripPrefix b ∧
    stripPrefix a ≠ b ∧ stripPrefix b ≠ a

/-! ## The pipeline's control flow

`run(command, args)` calls `spawn.sync(command, args, { stdio: "inherit" })`
and exits the process with code 1 only when `result.error` is set (the
subprocess could not be launched); the exit `status` of a subprocess that did
launch is never consulted.  The script then is a straight line:

  1. if the cache directory exists, remove it (`rmSync` with `force`);
  2. `run("git", clone --depth 1 --no-checkout <url> <cacheDir>)`;
  3. `process.chdir(cacheDir)` — throws (and so aborts with a non-zero exit)
     when the directory is missing;
  4. `run("git", sparse-checkout set docs)`; 5. `run("git", checkout)`;
  6. `renameAll(docsDir)` — a thrown filesystem error aborts the run;
  7. if the destination exists, remove it; 8. `cpSync` cache → destination.

`Env` records the outcome the environment gives to each fallible operation;
`script` returns the steps that begin executing, in order, together with
`true` for a zero exit code.  Failures of the final remove/copy are not
modelled: no claim depends on them, and they could only occur after the
destination steps have already started. -/

/-- The fields of `spawn.sync`'s result that the script's `run` could look
at: `error` (set iff the subprocess failed to launch) and the exit status. -/
structure SpawnResult where
  error : Option String
  status : Int
deriving DecidableEq

/-- The run's side-effecting steps, in program order. -/
inductive Step where
  | removeCache | gitClone | chdirCache | gitSparse | gitCheckout
  | renameDocs | removeDest | copyDest
deriving DecidableEq

/-- The environment's responses to the script's fallible operations. -/
structure Env where
  cacheExists : Bool
  cloneRes : SpawnResult
  sparseRes : SpawnResult
  checkoutRes : SpawnResult
  chdirOk : Bool
  renameOk : Bool
  destExists : Bool
deriving DecidableEq

/-- The control flow of the whole script: the list of steps that begin
executing, in order, and whether the process exits with code 0. -/
def script (env : Env) : List Step × Bool :=
  let t1 := (if env.cacheExists then [Step.removeCache] else []) ++ [Step.gitClone]
  if env.cloneRes.error.isSome then (t1, false)
  else if env.chdirOk = false then (t1 ++ [Step.chdirCache], false)
  else
    let t2 := t1 ++ [Step.chdirCache, Step.gitSparse]
    if env.sparseRes.error.isSome then (t2, false)
    else
      let t3 := t2 ++ [Step.gitCheckout]
      if env.checkoutRes.error.isSome then (t3, false)
      else
        let t4 := t3 ++ [Step.renameDocs]
        if env.renameOk = false then (t4, false)
        else
          let t5 := t4 ++ (if env.destExists then [Step.removeDest] else [])
          (t5 ++ [Step.copyDest], true)

/-- Arguments of the clone invocation:
`git clone --depth 1 --no-checkout https://github.com/vercel/next.js <cacheDir>`. -/
def cloneArgs (cacheDir : String) : List String :=
  ["clone", "--depth", "1", "--no-checkout", "https://github.com/vercel/next.js", cacheDir]

/-- Arguments of the sparse-checkout configuration invocation. -/
def sparseArgs : List String :=
  ["sparse-checkout", "set", "docs"]

/-- Arguments of the checkout invocation. -/
def checkoutArgs : List String :=
  ["checkout"]

/-- The subprocess invocation a step performs, if any. -/
def stepGit (cacheDir : String) : Step → Option (String × List String)
  | Step.gitClone => some ("git", cloneArgs cacheDir)
  | Step.gitSparse => some ("git", sparseArgs)
  | Step.gitCheckout => some ("git", checkoutArgs)
  | _ => none

/-- The subprocess invocations the run actually performs, in order. -/
def gitCalls (cacheDir : String) (env : Env) : List (String × List String) :=
  (script env).1.filterMap (stepGit cacheDir)

/-- An environment where every operation succeeds but the clone subprocess
exits with status 1. -/
def envCloneNonzero : Env :=
  ⟨false, ⟨none, 1⟩, ⟨none, 0⟩, ⟨none, 0⟩, true, true, true⟩

/-- An environment where the clone subprocess exits with status 128 (as for
an unreachable remote host) and every other operation succeeds. -/
def envCloneUnreachable : Env :=
  ⟨true, ⟨none, 128⟩, ⟨none, 0⟩, ⟨none, 0⟩, true, true, true⟩

/-- An environment where the clone subprocess cannot be launched. -/
def envCloneLaunchFail : Env :=
  ⟨true, ⟨some "spawn git ENOENT", 0⟩, ⟨none, 0⟩, ⟨none, 0⟩, true, true, true⟩

/-- An environment where everything succeeds. -/
def envAllOk : Env :=
  ⟨true, ⟨none, 0⟩, ⟨none, 0⟩, ⟨none, 0⟩, true, true, true⟩

theorem stripPrefixData_of_not_match {l : List Char}
    (h : numPrefixMatch l = false) : stripPrefixData l = l := by
  simp [stripPrefixData, h]

theorem stripPrefixData_of_match {l : List Char}
    (h : numPrefixMatch l = true) :
    l = l.takeWhile Char.isDigit ++ '-' :: stripPrefixData l := by
  have hhead : (l.dropWhile Char.isDigit).head? = some '-' := by
    simp only [numPrefixMatch, Bool.and_eq_true, beq_iff_eq] at h
    exact h.2
  have hcons : l.dropWhile Char.isDigit =
      '-' :: (l.dropWhile Char.isDigit).tail := by
    cases hd : l.dropWhile Char.isDigit with
    | nil => simp [hd] at hhead
    | cons a t =>
      simp only [hd, List.head?_cons, Option.some.injEq] at hhead
      simp [hhead]
  calc l = l.takeWhile Char.isDigit ++ l.dropWhile Char.isDigit :=
        (List.takeWhile_append_dropWhile Char.isDigit l).symm
    _ = l.takeWhile Char.isDigit ++ '-' :: (l.dropWhile Char.isDigit).tail := by
        rw [← hcons]
    _ = l.takeWhile Char.isDigit ++ '-' :: stripPrefixData l := by
        rw [stripPrefixData, if_pos h]

theorem takeWhile_digits_append (d r : List Char)
    (hdig : ∀ c ∈ d, c.isDigit = true) :
    (d ++ '-' :: r).takeWhile Char.isDigit = d ∧
      (d ++ '-' :: r).dropWhile Char.isDigit = '-' :: r := by
  induction d with
  | nil =>
    constructor
    · simp [List.takeWhile_cons]
    · simp [List.dropWhile_cons]
  | cons a t ih =>
    have ha : a.isDigit = true := hdig a (by simp)
    have ht : ∀ c ∈ t, c.isDigit = true := fun c hc => hdig c (by simp [hc])
    obtain ⟨ih1, ih2⟩ := ih ht
    constructor
    · simp [List.takeWhile_cons, ha, ih1]
    · simp [List.dropWhile_cons, ha, ih2]

/-- `numPrefixMatch` agrees with "the name begins with one or more ASCII digits
immediately followed by a hyphen". -/
theorem numPrefixMatch_iff (l : List Char) :
    numPrefixMatch l = true ↔
      ∃ d r, l = d ++ '-' :: r ∧ d ≠ [] ∧ ∀ c ∈ d, c.isDigit = true := by
  constructor
  · intro h
    refine ⟨l.takeWhile Char.isDigit, stripPrefixData l,
      stripPrefixData_of_match h, ?_, ?_⟩
    · have h1 : (l.takeWhile Char.isDigit).isEmpty = false := by
        simp only [numPrefixMatch, Bool.and_eq_true, Bool.not_eq_true'] at h
        exact h.1
      intro hnil
      rw [hnil] at h1
      simp at h1
    · intro c hc
      exact List.mem_takeWhile_imp hc
  · rintro ⟨d, r, rfl, hne, hdig⟩
    obtain ⟨h1, h2⟩ := takeWhile_digits_append d r hdig
    simp [numPrefixMatch, h1, h2, hne]

theorem stripPrefix_of_not_match {n : String}
    (h : numPrefixMatch n.data = false) : stripPrefix n = n := by
  show String.mk (stripPrefixData n.data) = n
  rw [stripPrefixData_of_not_match h]

theorem stripPrefixData_length_lt {l : List Char}
    (h : numPrefixMatch l = true) :
    (stripPrefixData l).length < l.length := by
  have hne : (l.takeWhile Char.isDigit).isEmpty = false := by
    simp only [numPrefixMatch, Bool.and_eq_true, Bool.not_eq_true'] at h
    exact h.1
  have hlen : l.length =
      (l.takeWhile Char.isDigit).length + 1 + (stripPrefixData l).length := by
    conv_lhs => rw [stripPrefixData_of_match h]
    simp only [List.length_append, List.length_cons]
    omega
  have hpos : 0 < (l.takeWhile Char.isDigit).length := by
    cases hc : l.takeWhile Char.isDigit with
    | nil => rw [hc] at hne; simp at hne
    | cons a t => simp [hc]
  omega

/-! ## Claims about `stripPrefix` alone (C3, C4, C5, C9) -/

/-- Claim C3, counterexample: `stripPrefix` is not idempotent.  On the name
`"1-2-x"` one application yields `"2-x"`, a second application strips again
and yields `"x"`. -/
theorem c3_not_idempotent :
    stripPrefix "1-2-x" = "2-x" ∧ stripPrefix "2-x" = "x" ∧
      stripPrefix (stripPrefix "1-2-x") ≠ stripPrefix "1-2-x" := by
  refine ⟨by decide, by decide, ?_⟩
  decide

/-- Claim C3 as amended: `stripPrefix` is idempotent on every name whose
once-stripped form does not again begin with a nonempty digit run followed by
a hyphen (in particular on every already-normalized name in that sense); a
second application strips again precisely when the remainder still matches the
numeric-prefix pattern. -/
theorem c3_idempotent_on_normalized (n : String)
    (h : numPrefixMatch (stripPrefix n).data = false) :
    stripPrefix (stripPrefix n) = stripPrefix n :=
  stripPrefix_of_not_match h

/-- Witness for the amended C3 at the concrete name `"1-x"`. -/
theorem c3_idempotent_witness :
    numPrefixMatch (stripPrefix "1-x").data = false ∧
      stripPrefix (stripPrefix "1-x") = stripPrefix "1-x" :=
  ⟨by decide, c3_idempotent_on_normalized "1-x" (by decide)⟩

/-- Claim C4, counterexample: the name `"123-"` does not match the spec's
pattern `^[0-9]+-(.+)$` (the capture group would be empty), yet `stripPrefix`
is not the identity on it: it returns the empty string. -/
theorem c4_not_identity_on_spec_nonmatch :
    specPatternMatch "123-".data = false ∧ stripPrefix "123-" = "" ∧
      stripPrefix "123-" ≠ "123-" := by
  refine ⟨by decide, by decide, ?_⟩
  decide

/-- Claim C4 as amended: `stripPrefix` is the identity exactly on the names
that do not match the code's regex `^\d+-`, i.e. that do not begin with one
or more digits immediately followed by a hyphen (the spec's pattern
`^[0-9]+-(.+)$` additionally requires a nonempty remainder, so a name of
digits followed by a bare trailing hyphen escapes it but is still rewritten). -/
theorem c4_identity_on_nonmatching (n : String)
    (h : numPrefixMatch n.data = false) : stripPrefix n = n :=
  stripPrefix_of_not_match h

/-- Witness for the amended C4 at the concrete name `"readme.md"`. -/
theorem c4_identity_witness :
    numPrefixMatch "readme.md".data = false ∧
      stripPrefix "readme.md" = "readme.md" :=
  ⟨by decide, c4_identity_on_nonmatching "readme.md" (by decide)⟩

/-- Claim C5: for every name matching the spec's pattern `^[0-9]+-(.+)$`,
`stripPrefix` returns exactly the capture group `\1`, i.e. the remainder of
the name after the first digit-run-and-hyphen prefix, preserved verbatim
(the name literally decomposes as `digits ++ "-" ++ remainder`). -/
theorem c5_strips_to_capture (n : String)
    (h : specPatternMatch n.data = true) :
    stripPrefix n = String.mk (specCapture n.data) ∧
      n.data = n.data.takeWhile Char.isDigit ++ '-' :: specCapture n.data := by
  have hm : numPrefixMatch n.data = true := by
    simp only [specPatternMatch, Bool.and_eq_true] at h
    exact h.1
  constructor
  · show String.mk (stripPrefixData n.data) = String.mk (specCapture n.data)
    rw [stripPrefixData, if_pos hm, specCapture]
  · have := stripPrefixData_of_match hm
    rw [stripPrefixData, if_pos hm] at this
    exact this

/-- Witness for C5 at the concrete name `"01-intro.md"`. -/
theorem c5_witness :
    specPatternMatch "01-intro.md".data = true ∧
      stripPrefix "01-intro.md" = "intro.md" := by
  have h := c5_strips_to_capture "01-intro.md" (by decide)
  exact ⟨by decide, h.1.trans (by decide)⟩

/-- Claim C9: for every name, `stripPrefix name` is a suffix of `name` and is
no longer than `name`; the lengths are equal exactly when the name does not
begin with one or more ASCII digits immediately followed by a hyphen; and
every name whose first character is not a digit is a fixed point. -/
theorem c9_suffix_length (n : String) :
    (stripPrefix n).data <:+ n.data ∧
      (stripPrefix n).data.length ≤ n.data.length ∧
      ((stripPrefix n).data.length = n.data.length ↔
        ¬ ∃ d r, n.data = d ++ '-' :: r ∧ d ≠ [] ∧ ∀ c ∈ d, c.isDigit = true) ∧
      (∀ c, n.data.head? = some c → c.isDigit = false → stripPrefix n = n) := by
  have hdata : (stripPrefix n).data = stripPrefixData n.data := rfl
  cases hm : numPrefixMatch n.data with
  | false =>
    have hid : stripPrefixData n.data = n.data := stripPrefixData_of_not_match hm
    refine ⟨?_, ?_, ?_, ?_⟩
    · rw [hdata, hid]
    · rw [hdata, hid]
    · rw [hdata, hid]
      simp only [true_iff]
      intro hex
      rw [(numPrefixMatch_iff n.data).2 hex] at hm
      cases hm
    · intro c _ _
      exact stripPrefix_of_not_match hm
  | true =>
    have hlt : (stripPrefixData n.data).length < n.data.length :=
      stripPrefixData_length_lt hm
    obtain ⟨d, r, hl, hne, hdig⟩ := (numPrefixMatch_iff n.data).1 hm
    refine ⟨?_, ?_, ?_, ?_⟩
    · rw [hdata]
      refine ⟨n.data.takeWhile Char.isDigit ++ ['-'], ?_⟩
      rw [List.append_assoc]
      exact (stripPrefixData_of_match hm).symm
    · rw [hdata]; omega
    · rw [hdata]
      constructor
      · intro hlen; omega
      · intro hnex
        exact absurd ⟨d, r, hl, hne, hdig⟩ hnex
    · intro c hc hcdig
      exfalso
      cases hd : d with
      | nil => exact hne hd
      | cons a t =>
        have hhead : n.data.head? = some a := by
          rw [hl, hd]; rfl
        have : c = a := by
          rw [hhead] at hc
          exact (Option.some.injEq _ _ ▸ hc.symm :)
        have ha : a.isDigit = true := hdig a (by rw [hd]; simp)
        rw [this] at hcdig
        rw [ha] at hcdig
        cases hcdig

/-- Witness for C9 at the concrete name `"abc"` (first character not a digit,
so the name is a fixed point). -/
theorem c9_witness :
    "abc".data.head? = some 'a' ∧ stripPrefix "abc" = "abc" := by
  have h := c9_suffix_length "abc"
  exact ⟨by decide, h.2.2.2 'a' (by decide) (by decide)⟩

/-! ## Paths of the normalized tree (C6) -/

mutual

theorem treePaths_normalizeTree (t : FsTree) :
    ∀ p, p ∈ treePaths (normalizeTree t) ↔
      ∃ q ∈ treePaths t, p = q.map stripPrefix := by
  cases t with
  | file nm =>
    intro p
    simp [normalizeTree, treePaths]
  | dir nm cs =>
    intro p
    simp only [normalizeTree, treePaths, List.mem_cons, List.mem_map]
    constructor
    · rintro (rfl | ⟨p', hp', rfl⟩)
      · exact ⟨[nm], Or.inl rfl, rfl⟩
      · obtain ⟨q', hq', rfl⟩ := (forestPaths_normalizeForest cs p').1 hp'
        exact ⟨nm :: q', Or.inr ⟨q', hq', rfl⟩, rfl⟩
    · rintro ⟨q, (rfl | ⟨q', hq', rfl⟩), rfl⟩
      · exact Or.inl rfl
      · exact Or.inr ⟨q'.map stripPrefix,
          (forestPaths_normalizeForest cs _).2 ⟨q', hq', rfl⟩, rfl⟩

theorem forestPaths_normalizeForest (cs : List FsTree) :
    ∀ p, p ∈ forestPaths (normalizeForest cs) ↔
      ∃ q ∈ forestPaths cs, p = q.map stripPrefix := by
  cases cs with
  | nil =>
    intro p
    simp [normalizeForest, forestPaths]
  | cons t ts =>
    intro p
    simp only [normalizeForest, forestPaths, List.mem_append]
    constructor
    · rintro (h | h)
      · obtain ⟨q, hq, rfl⟩ := (treePaths_normalizeTree t p).1 h
        exact ⟨q, Or.inl hq, rfl⟩
      · obtain ⟨q, hq, rfl⟩ := (forestPaths_normalizeForest ts p).1 h
        exact ⟨q, Or.inr hq, rfl⟩
    · rintro ⟨q, (hq | hq), rfl⟩
      · exact Or.inl ((treePaths_normalizeTree t _).2 ⟨q, hq, rfl⟩)
      · exact Or.inr ((forestPaths_normalizeForest ts _).2 ⟨q, hq, rfl⟩)

end

/-! ## The rename execution under collision-freeness (C6) -/

theorem entryName_withName (nm : String) (t : FsTree) :
    entryName (withName nm t) = nm := by
  cases t <;> rfl

theorem entryName_normalizeTree (t : FsTree) :
    entryName (normalizeTree t) = stripPrefix (entryName t) := by
  cases t <;> simp [normalizeTree, entryName]

theorem normalizeForest_append (xs ys : List FsTree) :
    normalizeForest (xs ++ ys) = normalizeForest xs ++ normalizeForest ys := by
  induction xs with
  | nil => simp [normalizeForest]
  | cons t ts ih => simp [normalizeForest, ih]

theorem findEntry_cons_of_eq {nm : String} {e : FsTree} (es : List FsTree)
    (h : entryName e = nm) : findEntry nm (e :: es) = some e := by
  simp [findEntry, h]

theorem findEntry_cons_of_ne {nm : String} {e : FsTree} (es : List FsTree)
    (h : entryName e ≠ nm) : findEntry nm (e :: es) = findEntry nm es := by
  simp [findEntry, h]

theorem findEntry_none_of_forall {nm : String} {xs : List FsTree}
    (h : ∀ x ∈ xs, entryName x ≠ nm) : findEntry nm xs = none := by
  induction xs with
  | nil => rfl
  | cons e es ih =>
    rw [findEntry_cons_of_ne es (h e (List.mem_cons_self e es))]
    exact ih fun x hx => h x (List.mem_cons_of_mem e hx)

theorem findEntry_append_of_forall {nm : String} {xs : List FsTree}
    (ys : List FsTree) (h : ∀ x ∈ xs, entryName x ≠ nm) :
    findEntry nm (xs ++ ys) = findEntry nm ys := by
  induction xs with
  | nil => rfl
  | cons e es ih =>
    rw [List.cons_append, findEntry_cons_of_ne _ (h e (List.mem_cons_self e es))]
    exact ih fun x hx => h x (List.mem_cons_of_mem e hx)

theorem map_entry_id {nm : String} {f : FsTree → FsTree} {xs : List FsTree}
    (h : ∀ x ∈ xs, entryName x ≠ nm) :
    (xs.map fun e => if entryName e = nm then f e else e) = xs := by
  induction xs with
  | nil => rfl
  | cons e es ih =>
    rw [List.map_cons, if_neg (h e (List.mem_cons_self e es)),
      ih fun x hx => h x (List.mem_cons_of_mem e hx)]

theorem treeHeight_le_of_mem {t : FsTree} {cs : List FsTree} (h : t ∈ cs) :
    treeHeight t ≤ forestHeight cs := by
  induction cs with
  | nil => cases h
  | cons a as ih =>
    have hf : forestHeight (a :: as) = max (treeHeight a) (forestHeight as) := by
      simp [forestHeight]
    rcases List.mem_cons.1 h with rfl | h2
    · rw [hf]; exact le_max_left _ _
    · rw [hf]; exact le_trans (ih h2) (le_max_right _ _)

theorem noCollisionAll_mem {cs : List FsTree} {t : FsTree}
    (hall : noCollisionAll cs = true) (h : t ∈ cs) :
    noCollisionTree t = true := by
  induction cs with
  | nil => cases h
  | cons a as ih =>
    obtain ⟨h1, h2⟩ : noCollisionTree a = true ∧ noCollisionAll as = true := by
      simpa [noCollisionAll, Bool.and_eq_true] using hall
    rcases List.mem_cons.1 h with rfl | h3
    · exact h1
    · exact ih h2 h3

theorem noCollisionTree_dir (nm : String) (cs : List FsTree) :
    noCollisionTree (FsTree.dir nm cs) = noCollisionForest cs := by
  simp [noCollisionTree, noCollisionForest]

theorem nameOK_iff {a b : String} : nameOK a b = true ↔ NameFacts a b := by
  simp [nameOK, NameFacts, Bool.and_eq_true, bne_iff_ne, and_assoc]

theorem nameFacts_symm {a b : String} (h : NameFacts a b) : NameFacts b a :=
  ⟨Ne.symm h.1, Ne.symm h.2.1, h.2.2.2, h.2.2.1⟩

theorem sibsOK_pairwise (ns : List String) :
    sibsOK ns = true ↔ List.Pairwise NameFacts ns := by
  induction ns with
  | nil => simp [sibsOK]
  | cons n ns ih =>
    constructor
    · intro h
      obtain ⟨h1, h2⟩ : ns.all (nameOK n) = true ∧ sibsOK ns = true := by
        simpa [sibsOK, Bool.and_eq_true] using h
      refine List.pairwise_cons.2 ⟨?_, ih.1 h2⟩
      intro b hb
      exact nameOK_iff.1 (List.all_eq_true.1 h1 b hb)
    · intro h
      obtain ⟨h1, h2⟩ := List.pairwise_cons.1 h
      have ha : ns.all (nameOK n) = true :=
        List.all_eq_true.2 fun b hb => nameOK_iff.2 (h1 b hb)
      simp [sibsOK, Bool.and_eq_true, ha, ih.2 h2]

theorem stripsNonempty_mem {ns : List String} {n : String}
    (h : stripsNonempty ns = true) (hm : n ∈ ns) : stripPrefix n ≠ "" := by
  simp only [stripsNonempty, List.all_eq_true, bne_iff_ne] at h
  exact h n hm

theorem mem_normalizeForest {x : FsTree} : ∀ {xs : List FsTree},
    x ∈ normalizeForest xs ↔ ∃ p ∈ xs, x = normalizeTree p := by
  intro xs
  induction xs with
  | nil => simp [normalizeForest]
  | cons t ts ih =>
    rw [show normalizeForest (t :: ts) = normalizeTree t :: normalizeForest ts
      from by simp [normalizeForest]]
    rw [List.mem_cons, ih]
    constructor
    · rintro (rfl | ⟨p, hp, rfl⟩)
      · exact ⟨t, List.mem_cons_self _ _, rfl⟩
      · exact ⟨p, List.mem_cons_of_mem _ hp, rfl⟩
    · rintro ⟨p, hp, rfl⟩
      rcases List.mem_cons.1 hp with rfl | hp2
      · exact Or.inl rfl
      · exact Or.inr ⟨p, hp2, rfl⟩

theorem stepOne_norm (fuel : Nat)
    (ih : ∀ cs, noCollisionForest cs = true → forestHeight cs < fuel →
      renameAllExecF fuel cs = some (normalizeForest cs))
    (pre : List FsTree) (e : FsTree) (rest : List FsTree)
    (HP : List.Pairwise NameFacts ((pre ++ e :: rest).map entryName))
    (HS : stripsNonempty ((pre ++ e :: rest).map entryName) = true)
    (HA : noCollisionAll (pre ++ e :: rest) = true)
    (HH : forestHeight (pre ++ e :: rest) ≤ fuel) :
    stepOne (renameAllExecF fuel) (entryName e) (isDirEntry e)
        (normalizeForest pre ++ e :: rest) =
      some (normalizeForest pre ++ normalizeTree e :: rest) := by
  rw [List.map_append, List.map_cons] at HP
  obtain ⟨HPpre, HPrest, Hcross⟩ := List.pairwise_append.1 HP
  obtain ⟨Hhead, _⟩ := List.pairwise_cons.1 HPrest
  have hPreE : ∀ p ∈ pre, NameFacts (entryName p) (entryName e) := fun p hp =>
    Hcross _ (List.mem_map_of_mem entryName hp) _ (List.mem_cons_self _ _)
  have hERest : ∀ r ∈ rest, NameFacts (entryName e) (entryName r) := fun r hr =>
    Hhead _ (List.mem_map_of_mem entryName hr)
  have hSne : stripPrefix (entryName e) ≠ "" :=
    stripsNonempty_mem HS
      (List.mem_map_of_mem entryName
        (List.mem_append_right _ (List.mem_cons_self _ _)))
  have hNPE : ∀ x ∈ normalizeForest pre, entryName x ≠ entryName e := by
    intro x hx
    obtain ⟨p, hp, rfl⟩ := mem_normalizeForest.1 hx
    rw [entryName_normalizeTree]
    exact (hPreE p hp).2.2.1
  have hNPS : ∀ x ∈ normalizeForest pre,
      entryName x ≠ stripPrefix (entryName e) := by
    intro x hx
    obtain ⟨p, hp, rfl⟩ := mem_normalizeForest.1 hx
    rw [entryName_normalizeTree]
    exact (hPreE p hp).2.1
  have hRE : ∀ r ∈ rest, entryName r ≠ entryName e :=
    fun r hr => Ne.symm (hERest r hr).1
  have hRS : ∀ r ∈ rest, entryName r ≠ stripPrefix (entryName e) :=
    fun r hr => Ne.symm (hERest r hr).2.2.1
  have hmem : e ∈ pre ++ e :: rest :=
    List.mem_append_right _ (List.mem_cons_self _ _)
  cases e with
  | file nm =>
    simp only [entryName] at hNPE hNPS hRE hRS hSne
    by_cases hg : nm = stripPrefix nm
    · simp only [stepOne, entryName, isDirEntry, if_pos hg]
      simp [normalizeTree, ← hg]
    · have hfind1 : findEntry nm
          (normalizeForest pre ++ FsTree.file nm :: rest) =
          some (FsTree.file nm) := by
        rw [findEntry_append_of_forall _ hNPE]
        exact findEntry_cons_of_eq _ rfl
      have hfind2 : findEntry (stripPrefix nm)
          (normalizeForest pre ++ FsTree.file nm :: rest) = none := by
        rw [findEntry_append_of_forall _ hNPS]
        rw [findEntry_cons_of_ne _
          (show entryName (FsTree.file nm) ≠ stripPrefix nm from hg)]
        exact findEntry_none_of_forall hRS
      have happly : applyRename nm (stripPrefix nm)
          (normalizeForest pre ++ FsTree.file nm :: rest) =
          some (renameInState nm (stripPrefix nm) (FsTree.file nm)
            (normalizeForest pre ++ FsTree.file nm :: rest)) := by
        simp only [applyRename, hfind1, hfind2]
      have hren : renameInState nm (stripPrefix nm) (FsTree.file nm)
          (normalizeForest pre ++ FsTree.file nm :: rest) =
          normalizeForest pre ++ FsTree.file (stripPrefix nm) :: rest := by
        rw [renameInState, List.map_append, List.map_cons,
          map_entry_id hNPE, map_entry_id hRE]
        simp [entryName, withName]
      simp only [stepOne, entryName, isDirEntry, if_neg hg, if_neg hSne,
        happly, hren]
      simp [normalizeTree]
  | dir nm dcs =>
    simp only [entryName] at hNPE hNPS hRE hRS hSne
    have hncd : noCollisionForest dcs = true := by
      have h3 := noCollisionAll_mem HA hmem
      rwa [noCollisionTree_dir] at h3
    have hhd : forestHeight dcs < fuel := by
      have h1 := treeHeight_le_of_mem hmem
      have h2 : treeHeight (FsTree.dir nm dcs) = forestHeight dcs + 1 := by
        simp [treeHeight]
      omega
    have hrec : renameAllExecF fuel dcs = some (normalizeForest dcs) :=
      ih dcs hncd hhd
    by_cases hg : nm = stripPrefix nm
    · have hfind3 : findEntry (stripPrefix nm)
          (normalizeForest pre ++ FsTree.dir nm dcs :: rest) =
          some (FsTree.dir nm dcs) := by
        rw [← hg, findEntry_append_of_forall _ hNPE]
        exact findEntry_cons_of_eq _ rfl
      have hset : setChildren (stripPrefix nm) (normalizeForest dcs)
          (normalizeForest pre ++ FsTree.dir nm dcs :: rest) =
          normalizeForest pre ++
            FsTree.dir (stripPrefix nm) (normalizeForest dcs) :: rest := by
        rw [setChildren, List.map_append, List.map_cons,
          map_entry_id hNPS, map_entry_id hRS]
        simp only [entryName]
        rw [if_pos hg]
      simp only [stepOne, entryName, isDirEntry, if_pos hg, hfind3, hrec, hset]
      simp [normalizeTree, ← hg]
    · have hfind1 : findEntry nm
          (normalizeForest pre ++ FsTree.dir nm dcs :: rest) =
          some (FsTree.dir nm dcs) := by
        rw [findEntry_append_of_forall _ hNPE]
        exact findEntry_cons_of_eq _ rfl
      have hfind2 : findEntry (stripPrefix nm)
          (normalizeForest pre ++ FsTree.dir nm dcs :: rest) = none := by
        rw [findEntry_append_of_forall _ hNPS]
        rw [findEntry_cons_of_ne _
          (show entryName (FsTree.dir nm dcs) ≠ stripPrefix nm from hg)]
        exact findEntry_none_of_forall hRS
      have happly : applyRename nm (stripPrefix nm)
          (normalizeForest pre ++ FsTree.dir nm dcs :: rest) =
          some (renameInState nm (stripPrefix nm) (FsTree.dir nm dcs)
            (normalizeForest pre ++ FsTree.dir nm dcs :: rest)) := by
        simp only [applyRename, hfind1, hfind2]
      have hren : renameInState nm (stripPrefix nm) (FsTree.dir nm dcs)
          (normalizeForest pre ++ FsTree.dir nm dcs :: rest) =
          normalizeForest pre ++ FsTree.dir (stripPrefix nm) dcs :: rest := by
        rw [renameInState, List.map_append, List.map_cons,
          map_entry_id hNPE, map_entry_id hRE]
        simp [entryName, withName]
      have hfind3 : findEntry (stripPrefix nm)
          (normalizeForest pre ++ FsTree.dir (stripPrefix nm) dcs :: rest) =
          some (FsTree.dir (stripPrefix nm) dcs) := by
        rw [findEntry_append_of_forall _ hNPS]
        exact findEntry_cons_of_eq _ rfl
      have hset : setChildren (stripPrefix nm) (normalizeForest dcs)
          (normalizeForest pre ++ FsTree.dir (stripPrefix nm) dcs :: rest) =
          normalizeForest pre ++
            FsTree.dir (stripPrefix nm) (normalizeForest dcs) :: rest := by
        rw [setChildren, List.map_append, List.map_cons,
          map_entry_id hNPS, map_entry_id hRS]
        simp [entryName]
      simp only [stepOne, entryName, isDirEntry, if_neg hg, if_neg hSne,
        happly, hren, hfind3, hrec, hset]
      simp [normalizeTree]

theorem runItems_norm (fuel : Nat)
    (ih : ∀ cs, noCollisionForest cs = true → forestHeight cs < fuel →
      renameAllExecF fuel cs = some (normalizeForest cs)) :
    ∀ rest pre : List FsTree,
      List.Pairwise NameFacts ((pre ++ rest).map entryName) →
      stripsNonempty ((pre ++ rest).map entryName) = true →
      noCollisionAll (pre ++ rest) = true →
      forestHeight (pre ++ rest) ≤ fuel →
      runItems (renameAllExecF fuel) (snapshotOf rest)
          (normalizeForest pre ++ rest) =
        some (normalizeForest (pre ++ rest)) := by
  intro rest
  induction rest with
  | nil =>
    intro pre _ _ _ _
    simp [snapshotOf, runItems]
  | cons e rest ih2 =>
    intro pre HP HS HA HH
    have hstep := stepOne_norm fuel ih pre e rest HP HS HA HH
    have hsnap : snapshotOf (e :: rest) =
        (entryName e, isDirEntry e) :: snapshotOf rest := by
      simp [snapshotOf]
    rw [hsnap]
    simp only [runItems, hstep]
    have hre : normalizeForest pre ++ normalizeTree e :: rest =
        normalizeForest (pre ++ [e]) ++ rest := by
      rw [normalizeForest_append]
      simp [normalizeForest]
    have hAssoc : (pre ++ [e]) ++ rest = pre ++ e :: rest := by
      rw [List.append_assoc, List.singleton_append]
    rw [hre,
      ih2 (pre ++ [e]) (by rw [hAssoc]; exact HP) (by rw [hAssoc]; exact HS)
        (by rw [hAssoc]; exact HA) (by rw [hAssoc]; exact HH),
      hAssoc]

theorem renameAllExecF_norm : ∀ (fuel : Nat) (cs : List FsTree),
    noCollisionForest cs = true → forestHeight cs < fuel →
    renameAllExecF fuel cs = some (normalizeForest cs) := by
  intro fuel
  induction fuel with
  | zero =>
    intro cs _ h
    exact absurd h (Nat.not_lt_zero _)
  | succ fuel ih =>
    intro cs hnc hht
    obtain ⟨⟨hs, hsib⟩, hall⟩ :
        (stripsNonempty (cs.map entryName) = true ∧
          sibsOK (cs.map entryName) = true) ∧ noCollisionAll cs = true := by
      simpa [noCollisionForest, Bool.and_eq_true] using hnc
    have h1 : renameAllExecF (fuel + 1) cs =
        runItems (renameAllExecF fuel) (snapshotOf cs) cs := by
      simp [renameAllExecF]
    rw [h1]
    have h2 := runItems_norm fuel ih cs []
      (by simpa using (sibsOK_pairwise _).1 hsib)
      (by simpa using hs)
      (by simpa using hall)
      (by simpa using Nat.lt_succ_iff.1 hht)
    simpa [normalizeForest] using h2

theorem renameAllRun_norm (cs : List FsTree)
    (h : noCollisionForest cs = true) :
    renameAllRun cs = some (normalizeForest cs) :=
  renameAllExecF_norm (forestHeight cs + 1) cs h (Nat.lt_succ_self _)

/-- Claim C6, counterexample: a run can succeed and still leave the
destination different from the segment-wise normalized image.  With source
listing `1-a` (a directory holding the file `1-2-x`) next to an empty
directory `a`, in that `readdir` order, every operation succeeds: `1-a` is
renamed over the empty directory `a` (POSIX rename replaces it), its child
becomes `2-x`, and then the stale dirent `a` re-traverses the directory and
strips the child again to `x`.  The resulting destination path `a/x` is not
the normalized image of any source path. -/
theorem c6_collision_counterexample :
    runDestination none
        [FsTree.dir "1-a" [FsTree.file "1-2-x"], FsTree.dir "a" []] =
        some [FsTree.dir "a" [FsTree.file "x"]] ∧
      (["a", "x"] : List String) ∈
        forestPaths [FsTree.dir "a" [FsTree.file "x"]] ∧
      ¬ ∃ q ∈ forestPaths
          [FsTree.dir "1-a" [FsTree.file "1-2-x"], FsTree.dir "a" []],
          (["a", "x"] : List String) = q.map stripPrefix := by
  refine ⟨rfl, by decide, by decide⟩

/-- Claim C6 as amended: after a successful run whose source listing is
collision-free — within every directory the normalized entry names are
nonempty and pairwise distinct, and no entry's normalized name equals
another entry's original name — the destination is exactly the segment-wise
normalized image of the checked-out source subtree: a path is in the
destination iff it is the `stripPrefix`-image, segment by segment, of a
source path, independent of the previous destination content (no leftover
files survive).  Without collision-freeness a successful run can produce
destination paths outside the normalized image. -/
theorem c6_normalized_image_no_collision (prev : Option FsTree)
    (docs dest : List FsTree)
    (hnc : noCollisionForest docs = true)
    (hrun : runDestination prev docs = some dest) :
    dest = normalizeForest docs ∧
      ∀ p, p ∈ forestPaths dest ↔
        ∃ q ∈ forestPaths docs, p = q.map stripPrefix := by
  have h := renameAllRun_norm docs hnc
  have hd : dest = normalizeForest docs := by
    rw [runDestination, h] at hrun
    exact (Option.some.injEq _ _ ▸ hrun :).symm
  subst hd
  exact ⟨rfl, fun p => forestPaths_normalizeForest docs p⟩

/-- Witness for the amended C6 on a concrete collision-free listing. -/
theorem c6_no_collision_witness :
    ([FsTree.dir "a" [FsTree.file "b"], FsTree.file "c.md"] : List FsTree) =
        normalizeForest
          [FsTree.dir "1-a" [FsTree.file "2-b"], FsTree.file "3-c.md"] ∧
      ∀ p, p ∈ forestPaths
          [FsTree.dir "a" [FsTree.file "b"], FsTree.file "c.md"] ↔
        ∃ q ∈ forestPaths
            [FsTree.dir "1-a" [FsTree.file "2-b"], FsTree.file "3-c.md"],
          p = q.map stripPrefix :=
  c6_normalized_image_no_collision none
    [FsTree.dir "1-a" [FsTree.file "2-b"], FsTree.file "3-c.md"]
    [FsTree.dir "a" [FsTree.file "b"], FsTree.file "c.md"]
    (by decide) rfl

/-! ## Order of renames (C7) and the empty-name hazard (C10) -/

theorem joinSeg_prefix_self (d : List String) (s : String) :
    d <+: joinSeg d s := by
  unfold joinSeg
  split
  · exact List.prefix_refl d
  · exact ⟨[s], rfl⟩

theorem renameStep_prefix_self (d : List String) (nm : String) :
    ∀ pr ∈ renameStep d nm, d <+: pr.1 ∧ d <+: pr.2 := by
  intro pr hpr
  unfold renameStep at hpr
  split at hpr
  · rw [List.mem_singleton] at hpr
    subst hpr
    exact ⟨joinSeg_prefix_self d nm, joinSeg_prefix_self d (stripPrefix nm)⟩
  · simp at hpr

mutual

theorem renameEntryOps_prefix_self (d : List String) (t : FsTree) :
    ∀ pr ∈ renameEntryOps d t, d <+: pr.1 ∧ d <+: pr.2 := by
  cases t with
  | file nm =>
    intro pr hpr
    exact renameStep_prefix_self d nm pr hpr
  | dir nm cs =>
    intro pr hpr
    simp only [renameEntryOps, List.mem_append] at hpr
    rcases hpr with h | h
    · exact renameStep_prefix_self d nm pr h
    · have h2 := renameAllOps_prefix_self (joinSeg d (stripPrefix nm)) cs pr h
      exact ⟨(joinSeg_prefix_self d (stripPrefix nm)).trans h2.1,
        (joinSeg_prefix_self d (stripPrefix nm)).trans h2.2⟩

theorem renameAllOps_prefix_self (d : List String) (items : List FsTree) :
    ∀ pr ∈ renameAllOps d items, d <+: pr.1 ∧ d <+: pr.2 := by
  cases items with
  | nil =>
    intro pr hpr
    simp [renameAllOps] at hpr
  | cons it rest =>
    intro pr hpr
    simp only [renameAllOps, List.mem_append] at hpr
    rcases hpr with h | h
    · exact renameEntryOps_prefix_self d it pr h
    · exact renameAllOps_prefix_self d rest pr h

end

/-- Claim C7: renames are applied top-down.  For a directory entry,
`renameAll` first attempts the entry's own rename and then processes the
entry's children at the entry's new (renamed) path, before moving on to the
remaining siblings; consequently every rename attempted inside the entry acts
on paths that extend the already-renamed parent path. -/
theorem c7_renames_topdown (d : List String) (nm : String)
    (cs rest : List FsTree) :
    renameAllOps d (FsTree.dir nm cs :: rest) =
      renameStep d nm ++
        renameAllOps (joinSeg d (stripPrefix nm)) cs ++
        renameAllOps d rest ∧
      ∀ pr ∈ renameAllOps (joinSeg d (stripPrefix nm)) cs,
        joinSeg d (stripPrefix nm) <+: pr.1 ∧
          joinSeg d (stripPrefix nm) <+: pr.2 := by
  constructor
  · simp [renameAllOps, renameEntryOps, List.append_assoc]
  · exact renameAllOps_prefix_self (joinSeg d (stripPrefix nm)) cs

/-- Witness for C7 on a concrete two-level tree `d/1-a/2-b`: the directory is
renamed first, and the rename of the child is computed under the renamed
parent path `d/a`. -/
theorem c7_witness :
    renameAllOps ["d"] [FsTree.dir "1-a" [FsTree.file "2-b"]] =
      renameStep ["d"] "1-a" ++
        renameAllOps (joinSeg ["d"] (stripPrefix "1-a")) [FsTree.file "2-b"] ++
        renameAllOps ["d"] [] ∧
      joinSeg ["d"] (stripPrefix "1-a") <+: (["d", "a", "2-b"] : List String) := by
  have h := c7_renames_topdown ["d"] "1-a" [FsTree.file "2-b"] []
  exact ⟨h.1, (h.2 (["d", "a", "2-b"], ["d", "a", "b"]) (by decide)).1⟩

/-- Claim C10: on a name of digits followed by a single trailing hyphen, such
as `"123-"`, `stripPrefix` returns the empty string, `path.join` of the parent
directory with the empty string is the parent directory itself, the
`oldPath !== newPath` guard passes, and `renameAll` attempts to rename the
entry onto its own parent directory — for a file entry and a directory entry
alike. -/
theorem c10_rename_onto_parent :
    stripPrefix "123-" = "" ∧
      joinSeg ["docs"] "" = ["docs"] ∧
      joinSeg ["docs"] "123-" ≠ joinSeg ["docs"] (stripPrefix "123-") ∧
      renameAllOps ["docs"] [FsTree.file "123-"] = [(["docs", "123-"], ["docs"])] ∧
      renameAllOps ["docs"] [FsTree.dir "123-" []] = [(["docs", "123-"], ["docs"])] := by
  refine ⟨by decide, by decide, by decide, by decide, by decide⟩

/-! ## Failure semantics of the pipeline (C1, C2) and its subprocess calls (C8) -/

theorem script_clone_error {env : Env}
    (h : env.cloneRes.error.isSome = true) :
    script env =
      ((if env.cacheExists then [Step.removeCache] else []) ++ [Step.gitClone],
        false) := by
  simp [script, h]

/-- Claim C1, counterexample: the `run` helper consults only `result.error`,
never the exit status.  In an environment where the clone subprocess launches
and exits with status 1 (and nothing else fails), the run does not terminate:
every subsequent step executes and the process exits with code 0. -/
theorem c1_nonzero_status_not_fatal :
    envCloneNonzero.cloneRes.status ≠ 0 ∧
      (script envCloneNonzero).2 = true ∧
      Step.gitSparse ∈ (script envCloneNonzero).1 ∧
      Step.renameDocs ∈ (script envCloneNonzero).1 ∧
      Step.copyDest ∈ (script envCloneNonzero).1 := by
  refine ⟨by decide, by decide, by decide, by decide, by decide⟩

/-- Claim C1 as amended: for each of the three version-control invocations,
if the invocation cannot be launched (`spawn.sync` reports `result.error`) the
run terminates immediately with a non-zero exit and executes no subsequent
step; an invocation that launches but exits with a non-zero status does not by
itself terminate the run — the exit status is never consulted (the control
flow is unchanged under any statuses). -/
theorem c1_launch_failure_fatal (env : Env) :
    (env.cloneRes.error.isSome = true →
      (script env).2 = false ∧
        ∀ s ∈ (script env).1, s = Step.removeCache ∨ s = Step.gitClone) ∧
      (env.cloneRes.error = none → env.chdirOk = true →
        env.sparseRes.error.isSome = true →
        (script env).2 = false ∧
          ∀ s ∈ (script env).1, s ≠ Step.gitCheckout ∧ s ≠ Step.renameDocs ∧
            s ≠ Step.removeDest ∧ s ≠ Step.copyDest) ∧
      (env.cloneRes.error = none → env.chdirOk = true →
        env.sparseRes.error = none → env.checkoutRes.error.isSome = true →
        (script env).2 = false ∧
          ∀ s ∈ (script env).1, s ≠ Step.renameDocs ∧ s ≠ Step.removeDest ∧
            s ≠ Step.copyDest) ∧
      (∀ a b c : Int,
        script ⟨env.cacheExists, ⟨env.cloneRes.error, a⟩,
          ⟨env.sparseRes.error, b⟩, ⟨env.checkoutRes.error, c⟩,
          env.chdirOk, env.renameOk, env.destExists⟩ = script env) := by
  obtain ⟨ce, ⟨cerr, cst⟩, ⟨serr, sst⟩, ⟨kerr, kst⟩, ch, ro, de⟩ := env
  refine ⟨?_, ?_, ?_, ?_⟩
  · intro h
    rw [script_clone_error h]
    refine ⟨rfl, ?_⟩
    intro s hs
    rcases List.mem_append.1 hs with h1 | h1
    · cases ce
      · simp at h1
      · exact Or.inl (by simpa using h1)
    · exact Or.inr (by simpa using h1)
  · intro hc hch hs
    subst hc
    simp only at hch hs
    subst hch
    simp only [script, hs]
    cases ce <;> simp
  · intro hc hch hs hk
    subst hc hs
    simp only at hch hk
    subst hch
    simp only [script, hk]
    cases ce <;> simp
  · intro a b c
    rfl

/-- Witness for the amended C1: with a concrete launch failure of the clone,
the run fails and only the cache removal and the clone attempt execute. -/
theorem c1_launch_failure_witness :
    (script envCloneLaunchFail).2 = false ∧
      ∀ s ∈ (script envCloneLaunchFail).1,
        s = Step.removeCache ∨ s = Step.gitClone :=
  (c1_launch_failure_fatal envCloneLaunchFail).1 (by decide)

/-- Claim C2, counterexample: a clone that exits with status 128 (as for an
unreachable remote) does not abort the run — in an environment where the
remaining operations succeed, the destination-deletion and copy steps both
execute, so the prior destination contents are not preserved. -/
theorem c2_clone_exit_dest_mutated :
    envCloneUnreachable.cloneRes.status ≠ 0 ∧
      Step.removeDest ∈ (script envCloneUnreachable).1 ∧
      Step.copyDest ∈ (script envCloneUnreachable).1 := by
  refine ⟨by decide, by decide, by decide⟩

/-- Claim C2 as amended: if the clone step fails to launch (`spawn.sync`
reports `result.error`), the pipeline aborts with a non-zero exit before any
destination mutation: neither the destination deletion nor the copy executes,
so the prior DestinationDirectory is untouched.  A clone that launches but
exits with a non-zero status does not by itself abort the run, and the
destination steps can still execute. -/
theorem c2_launch_failure_preserves_dest (env : Env)
    (h : env.cloneRes.error.isSome = true) :
    (script env).2 = false ∧
      Step.removeDest ∉ (script env).1 ∧
      Step.copyDest ∉ (script env).1 := by
  obtain ⟨ce, cr, sr, kr, ch, ro, de⟩ := env
  rw [script_clone_error h]
  refine ⟨rfl, ?_, ?_⟩ <;>
  · intro hmem
    rcases List.mem_append.1 hmem with h1 | h1
    · cases ce
      · simp at h1
      · simp at h1
    · simp at h1

/-- Witness for the amended C2 at a concrete launch failure. -/
theorem c2_launch_failure_witness :
    (script envCloneLaunchFail).2 = false ∧
      Step.removeDest ∉ (script envCloneLaunchFail).1 ∧
      Step.copyDest ∉ (script envCloneLaunchFail).1 :=
  c2_launch_failure_preserves_dest envCloneLaunchFail (by decide)

/-- Claim C8: the run performs no subprocess invocation other than (a prefix
of) the clone of the repository URL limited to depth 1 into the cache
directory, the sparse-checkout configuration restricted to `docs`, and the
checkout, in that order — and a run that succeeds performs exactly these
three. -/
theorem c8_three_git_invocations (cd : String) (env : Env) :
    gitCalls cd env <+:
        [("git", cloneArgs cd), ("git", sparseArgs), ("git", checkoutArgs)] ∧
      ((script env).2 = true →
        gitCalls cd env =
          [("git", cloneArgs cd), ("git", sparseArgs), ("git", checkoutArgs)]) := by
  obtain ⟨ce, ⟨cerr, cst⟩, ⟨serr, sst⟩, ⟨kerr, kst⟩, ch, ro, de⟩ := env
  cases cerr with
  | some e =>
    have hcalls : gitCalls cd ⟨ce, ⟨some e, cst⟩, ⟨serr, sst⟩, ⟨kerr, kst⟩,
        ch, ro, de⟩ = [("git", cloneArgs cd)] := by
      cases ce <;> simp [gitCalls, script, stepGit]
    rw [hcalls]
    constructor
    · exact ⟨[("git", sparseArgs), ("git", checkoutArgs)], rfl⟩
    · intro habs
      exfalso
      cases ce <;> simp [script] at habs
  | none =>
    cases ch with
    | false =>
      have hcalls : gitCalls cd ⟨ce, ⟨none, cst⟩, ⟨serr, sst⟩, ⟨kerr, kst⟩,
          false, ro, de⟩ = [("git", cloneArgs cd)] := by
        cases ce <;> simp [gitCalls, script, stepGit]
      rw [hcalls]
      constructor
      · exact ⟨[("git", sparseArgs), ("git", checkoutArgs)], rfl⟩
      · intro habs
        exfalso
        cases ce <;> simp [script] at habs
    | true =>
      cases serr with
      | some e =>
        have hcalls : gitCalls cd ⟨ce, ⟨none, cst⟩, ⟨some e, sst⟩,
            ⟨kerr, kst⟩, true, ro, de⟩ =
            [("git", cloneArgs cd), ("git", sparseArgs)] := by
          cases ce <;> simp [gitCalls, script, stepGit]
        rw [hcalls]
        constructor
        · exact ⟨[("git", checkoutArgs)], rfl⟩
        · intro habs
          exfalso
          cases ce <;> simp [script] at habs
      | none =>
        cases kerr with
        | some e =>
          have hcalls : gitCalls cd ⟨ce, ⟨none, cst⟩, ⟨none, sst⟩,
              ⟨some e, kst⟩, true, ro, de⟩ =
              [("git", cloneArgs cd), ("git", sparseArgs),
                ("git", checkoutArgs)] := by
            cases ce <;> simp [gitCalls, script, stepGit]
          rw [hcalls]
          exact ⟨List.prefix_refl _, fun _ => rfl⟩
        | none =>
          have hcalls : gitCalls cd ⟨ce, ⟨none, cst⟩, ⟨none, sst⟩,
              ⟨none, kst⟩, true, ro, de⟩ =
              [("git", cloneArgs cd), ("git", sparseArgs),
                ("git", checkoutArgs)] := by
            cases ce <;> cases ro <;> cases de <;>
              simp [gitCalls, script, stepGit]
          rw [hcalls]
          exact ⟨List.prefix_refl _, fun _ => rfl⟩

/-- Witness for C8: a fully successful run performs exactly the three
invocations. -/
theorem c8_witness :
    gitCalls "cache" envAllOk =
      [("git", cloneArgs "cache"), ("git", sparseArgs), ("git", checkoutArgs)] :=
  (c8_three_git_invocations "cache" envAllOk).2 (by decide)

end DocsSync
